import Mathlib

/-!
Verification development for the `telescope` blockchain indexer.

Shallow embedding of the core data model and operations:
* `src/fixed_hash.rs` — `H256` hex (de)serialization (via the `hex` crate's
  `decode_to_slice` / `encode`);
* `src/bitcoin/indexer.rs` — `IndexerStatus::merge`,
  `StartSyncBlockHeightsGenerator::next`, `StartSyncBlocksGenerator`
  (`prefetch` / `next`) as an explicit event machine;
* `src/bitcoin/bitcoind/rpc.rs` and `rest.rs` — `call` and
  `get_block_by_hash`;
* `src/bitcoin/database.rs` — `IndexerDataBase::push_block`;
* `src/db` — the named-query loader.

Machine integers (`u32`, `u64`) are modelled as `Nat`; the one place where
overflow/underflow matters (the `node_height - 3` subtraction in the height
generator) is modelled explicitly as a partial operation.
-/

namespace Telescope

/-! ## Hash256 and hex codec (src/fixed_hash.rs, `hex` crate) -/

/-- A 32-byte hash is modelled as its list of bytes. -/
abbrev H256 := List Nat

/-- Value of one hex digit, as in the `hex` crate: decimal digits,
lowercase `a`-`f` and uppercase `A`-`F` are all accepted. -/
def hexVal (c : Char) : Option Nat :=
  if 48 ≤ c.toNat ∧ c.toNat ≤ 57 then some (c.toNat - 48)
  else if 97 ≤ c.toNat ∧ c.toNat ≤ 102 then some (c.toNat - 87)
  else if 65 ≤ c.toNat ∧ c.toNat ≤ 70 then some (c.toNat - 55)
  else none

/-- Decode hex characters two at a time into bytes
(`hex::decode_to_slice` body). Fails on an odd tail or a non-hex digit. -/
def decodePairs : List Char → Option (List Nat)
  | [] => some []
  | [_] => none
  | c1 :: c2 :: rest =>
    match hexVal c1, hexVal c2, decodePairs rest with
    | some hi, some lo, some bs => some ((16 * hi + lo) :: bs)
    | _, _, _ => none

/-- `H256::deserialize_hex` (src/fixed_hash.rs): `hex::decode_to_slice` into a
32-byte buffer, which demands exactly 64 input characters. -/
def H256.deserialize_hex (s : List Char) : Option H256 :=
  if s.length = 64 then decodePairs s else none

/-- Lowercase hex digit for a value `n < 16`, as produced by `hex::encode`. -/
def hexChar (n : Nat) : Char :=
  if n < 10 then Char.ofNat (48 + n) else Char.ofNat (87 + n)

/-- `hex::encode`: every byte becomes two lowercase hex characters. -/
def hexEncode : List Nat → List Char
  | [] => []
  | b :: bs => hexChar (b / 16) :: hexChar (b % 16) :: hexEncode bs

/-- A character the lowercase encoder can actually produce: a decimal digit or
a lowercase `a`-`f`. -/
def isLowerHex (c : Char) : Bool :=
  decide ((48 ≤ c.toNat ∧ c.toNat ≤ 57) ∨ (97 ≤ c.toNat ∧ c.toNat ≤ 102))

/-! ## IndexerStatus (src/bitcoin/indexer.rs lines 157-200) -/

/-- Mutable status shared between the status loop and the height generator. -/
structure IndexerStatus where
  node_syncing_height : Nat
  node_syncing_hash : H256
  service_sync_from : Nat
  deriving DecidableEq, Repr

/-- `IndexerStatus::merge`: the `update_field!` macro is applied to
`node_syncing_height` and `node_syncing_hash` only; the line for
`service_sync_from` is commented out in the source. -/
def IndexerStatus.merge (self other : IndexerStatus) : IndexerStatus :=
  { self with
    node_syncing_height :=
      if self.node_syncing_height ≠ other.node_syncing_height then
        other.node_syncing_height
      else self.node_syncing_height,
    node_syncing_hash :=
      if self.node_syncing_hash ≠ other.node_syncing_hash then
        other.node_syncing_hash
      else self.node_syncing_hash }

/-! ## Height generator (src/bitcoin/indexer.rs lines 202-266) -/

/-- State of `StartSyncBlockHeightsGenerator`. The shared status behind the
`RwLock` is passed to `next` as the value read at call time. -/
structure StartSyncBlockHeightsGenerator where
  finished : Bool
  skipped_heights : List Nat
  next_height : Nat
  deriving DecidableEq, Repr

/-- `StartSyncBlockHeightsGenerator::next`. The outer `Option` is definedness:
`none` models the `u32` underflow of `node_height - 3` (reached only when no
skipped height is left and the generator is not finished). The inner
`Option Nat` is the returned value; `Vec::pop` takes the *last* element of
`skipped_heights`. -/
def StartSyncBlockHeightsGenerator.next (g : StartSyncBlockHeightsGenerator)
    (node_syncing_height : Nat) :
    Option (Option Nat × StartSyncBlockHeightsGenerator) :=
  if g.finished then some (none, g)
  else
    match g.skipped_heights.getLast? with
    | some height => some (some height, { g with skipped_heights := g.skipped_heights.dropLast })
    | none =>
      if node_syncing_height < 3 then none
      else
        let end_height := node_syncing_height - 3
        if g.next_height ≤ end_height then
          some (some g.next_height, { g with next_height := g.next_height + 1 })
        else
          some (none, { g with finished := true })

/-! ## JSON data model (src/bitcoin/bitcoind/json.rs) -/

/-- `TransactionInput`: coinbase or regular spend. -/
inductive TransactionInput where
  | coinbase (hex : List Nat)
  | usual (txid : Option H256) (vout : Nat)
  deriving DecidableEq, Repr

/-- `TransactionOutput`: decimal value kept as the raw string, plus the
optional address list of `scriptPubKey`. -/
structure TransactionOutput where
  value : String
  addresses : Option (List String)
  deriving DecidableEq, Repr

/-- `Transaction` from `getblock` verbosity 2. -/
structure Transaction where
  hash : H256
  hex : List Nat
  inputs : List TransactionInput
  outputs : List TransactionOutput
  deriving DecidableEq, Repr

/-- `Block` from `getblock` verbosity 2 / REST `block/{hash}.json`. -/
structure Block where
  height : Nat
  hash : H256
  prev_hash : Option H256
  next_hash : Option H256
  transactions : List Transaction
  size : Nat
  time : Nat
  deriving DecidableEq, Repr

/-- JSON-RPC envelope error (src/bitcoin/bitcoind/json.rs `ResponseError`). -/
structure ResponseError where
  code : Int
  message : String
  deriving DecidableEq, Repr

/-- JSON-RPC response envelope (src/bitcoin/bitcoind/json.rs `Response`). -/
structure Response (T : Type) where
  id : Nat
  error : Option ResponseError
  result : Option T

/-- Error kinds of the node clients (src/bitcoin/bitcoind/error.rs; payloads
irrelevant to the claims are dropped). -/
inductive BitcoindError where
  | NonceMismatch
  | ResponseParse
  | ResultRPC (err : ResponseError)
  | ResultNotFound
  | ResultMismatch
  | ResultRest (code : Nat) (msg : String)
  | Reqwest
  deriving DecidableEq, Repr

/-! ## RPC client (src/bitcoin/bitcoind/rpc.rs) -/

/-- Envelope handling of `RPCClient::call` (lines 93-103), applied to the
request id that was sent and the parsed response. -/
def RPCClient.call {T : Type} (req_id : Nat) (data : Response T) :
    Except BitcoindError T :=
  if data.id ≠ req_id then .error .NonceMismatch
  else
    match data.error with
    | some error => .error (.ResultRPC error)
    | none =>
      match data.result with
      | none => .error .ResultNotFound
      | some result => .ok result

/-- `RPCClient::get_block_by_hash`: post-processing of the `getblock`
(verbosity 2) call outcome. -/
def RPCClient.get_block_by_hash (hash : H256)
    (callResult : Except BitcoindError Block) :
    Except BitcoindError (Option Block) :=
  match callResult with
  | .ok block => if block.hash = hash then .ok (some block) else .error .ResultMismatch
  | .error (.ResultRPC error) =>
    if error.code = -5 then .ok none else .error (.ResultRPC error)
  | .error error => .error error

/-! ## REST client (src/bitcoin/bitcoind/rest.rs) -/

/-- `RESTClient::get_block_by_hash`, applied to the HTTP status code, the raw
body (as a string) and the outcome of parsing the body as a `Block`
(`none` models a serde failure). -/
def RESTClient.get_block_by_hash (hash : H256) (status_code : Nat)
    (body : String) (parsed : Option Block) :
    Except BitcoindError (Option Block) :=
  if status_code = 404 then .ok none
  else if status_code ≠ 200 then .error (.ResultRest status_code body.trim)
  else
    match parsed with
    | none => .error .ResponseParse
    | some block =>
      if block.hash ≠ hash then .error .ResultMismatch
      else .ok (some block)

/-! ## Indexer database (src/bitcoin/database.rs) -/

/-- The database content relevant to `push_block`: the list of persisted
blocks. -/
abbrev DbState := List Block

/-- `IndexerDataBase::push_block` (lines 65-67): the body is literally
`Ok(())` — no query is issued, the state is untouched. -/
def IndexerDataBase.push_block (db : DbState) (_block : Block) :
    Except Unit Unit × DbState :=
  (.ok (), db)

/-! ## Block prefetcher (src/bitcoin/indexer.rs lines 268-369)

`StartSyncBlocksGenerator` is embedded as an explicit state machine: the
`blocks` hash map becomes an association list `height ↦ slot`, a slot being
`none` while the spawned fetch task is in flight and `some result` once the
task has written its outcome back.  Task completions and `next()` calls are
events of an explicit, adversarially chosen schedule. Blocks are identified
by their height (`T := Nat`). -/

/-- Outcome a fetch task writes into its slot (`AnyResult<T>` after the
`prefetch` post-processing: a missing block already became an error). -/
inductive FRes where
  | ok (block : Nat)
  | err
  deriving DecidableEq, Repr

/-- Outcome of a `next()` call (`AnyResult<Option<T>>`). -/
inductive NRes where
  | ok (block : Option Nat)
  | err
  deriving DecidableEq, Repr

/-- Minimum of a list of naturals (`Iterator::min`). -/
def minNat : List Nat → Option Nat
  | [] => none
  | h :: t =>
    match minNat t with
    | none => some h
    | some m => some (min h m)

/-- State of `StartSyncBlocksGenerator`: the inner height generator and the
`blocks` map. -/
structure StartSyncBlocksGenerator where
  heights : StartSyncBlockHeightsGenerator
  blocks : List (Nat × Option FRes)
  deriving DecidableEq, Repr

/-- Heights of the ready (fetched) slots, and the selection performed by the
loop body of `next()` (lines 353-357): minimum key among slots whose value
`is_some()`. -/
def readyHeights (blocks : List (Nat × Option FRes)) : List Nat :=
  (blocks.filter (fun kv => kv.2.isSome)).map Prod.fst

/-- The `valid_height` computation of `next()`. -/
def validHeight (blocks : List (Nat × Option FRes)) : Option Nat :=
  minNat (readyHeights blocks)

/-- `prefetch()` (lines 303-333): pull the height generator; on a fresh
height insert an in-flight slot. `none` models a panic (generator underflow
or the `unreachable!` duplicate-height check). -/
def StartSyncBlocksGenerator.prefetch (node_syncing_height : Nat)
    (g : StartSyncBlocksGenerator) : Option StartSyncBlocksGenerator :=
  match g.heights.next node_syncing_height with
  | none => none
  | some (none, hg) => some { g with heights := hg }
  | some (some height, hg) =>
    if g.blocks.any (fun kv => kv.1 = height) then none
    else some { heights := hg, blocks := g.blocks ++ [(height, none)] }

/-- A spawned fetch task finishing for `height` with fetch outcome
`fetched` (`get_block` returned `Ok(fetched)`): the slot is overwritten with
the task's result, `Ok(None)` having been turned into an error (lines
314-328). `none` models the `unreachable!` for a missing slot. -/
def StartSyncBlocksGenerator.finishFetch (g : StartSyncBlocksGenerator)
    (height : Nat) (fetched : Option Nat) : Option StartSyncBlocksGenerator :=
  if g.blocks.any (fun kv => kv.1 = height) then
    let result := match fetched with
      | some block => FRes.ok block
      | none => FRes.err
    some { g with
           blocks := g.blocks.map (fun kv =>
             if kv.1 = height then (kv.1, some result) else kv) }
  else none

/-- One `next()` call (lines 335-368): prefetch, then either report the
drained pipeline, or remove and return the minimum ready height. `none`
models a call that would suspend waiting for a fetch (or a panic inside
`prefetch`); the schedule is only valid when the call can return. -/
def StartSyncBlocksGenerator.next (node_syncing_height : Nat)
    (g : StartSyncBlocksGenerator) : Option (StartSyncBlocksGenerator × NRes) :=
  match g.prefetch node_syncing_height with
  | none => none
  | some g1 =>
    if g1.blocks = [] then some (g1, .ok none)
    else
      match validHeight g1.blocks with
      | none => none
      | some height =>
        match (g1.blocks.find? (fun kv => kv.1 = height)).bind Prod.snd with
        | none => none
        | some (.ok block) =>
          some ({ g1 with blocks := g1.blocks.filter (fun kv => ¬ kv.1 = height) },
                .ok (some block))
        | some .err =>
          some ({ g1 with blocks := g1.blocks.filter (fun kv => ¬ kv.1 = height) },
                .err)

/-- An event of the fetch schedule: a task completion (with the block the
node returned for that height) or a `next()` call by the writer. -/
inductive Ev where
  | taskDone (height : Nat) (fetched : Option Nat)
  | nextCall
  deriving DecidableEq, Repr

/-- Run one schedule event, accumulating the values returned by `next()`. -/
def runEv (node_syncing_height : Nat)
    (s : StartSyncBlocksGenerator × List NRes) (e : Ev) :
    Option (StartSyncBlocksGenerator × List NRes) :=
  match e with
  | .taskDone height fetched =>
    (s.1.finishFetch height fetched).map (fun g => (g, s.2))
  | .nextCall =>
    (StartSyncBlocksGenerator.next node_syncing_height s.1).map
      (fun gr => (gr.1, s.2 ++ [gr.2]))

/-- Run a whole schedule. -/
def runEvents (node_syncing_height : Nat)
    (s : StartSyncBlocksGenerator × List NRes) (es : List Ev) :
    Option (StartSyncBlocksGenerator × List NRes) :=
  es.foldlM (runEv node_syncing_height) s

/-- Constructor (`StartSyncBlocksGenerator::new`): `prefetch_size` initial
prefetches. -/
def StartSyncBlocksGenerator.new (node_syncing_height : Nat)
    (heights : StartSyncBlockHeightsGenerator) (prefetch_size : Nat) :
    Option StartSyncBlocksGenerator :=
  Nat.rec (motive := fun _ => Option StartSyncBlocksGenerator)
    (some { heights := heights, blocks := [] })
    (fun _ acc => acc.bind (StartSyncBlocksGenerator.prefetch node_syncing_height))
    prefetch_size

/-- Heights of the blocks successfully delivered by `next()`, in delivery
order. -/
def emittedHeights (out : List NRes) : List Nat :=
  out.filterMap (fun r =>
    match r with
    | .ok (some block) => some block
    | _ => none)

/-! ## Named-query loader (src/db/yesql.rs, src/db/queries.rs)

Line classification and the panics follow `parse_sql` in src/db/yesql.rs.
The live loading path (`Queries::load` in src/db/queries.rs, executing the
`create` group in src/db/database.rs line 140) stores each group in the
`rsyesql` crate's `IndexMap`. Modelled from the spec: the `rsyesql` parse is
an external crate not present in the sources; per the spec its per-group map
is insertion-ordered, so the group is an association list in insertion order
(`entry().and_modify().or_insert()` keeps the position of an existing key and
appends a fresh key at the end). A source line is a `List Char` (the text
after multi-line comment stripping, split at newlines). -/

/-- Whitespace inside a line (the relevant subset of regex `\s`). -/
def isWs (c : Char) : Bool := c = ' ' ∨ c = '\t' ∨ c = '\r'

/-- Match the tag regex `^\s*--\s*name\s*:\s*(.*)\s*$` and extract the
captured name (greedy `(.*)` takes everything up to end of line). -/
def tagOf (line : List Char) : Option (List Char) :=
  let l1 := line.dropWhile isWs
  if l1.take 2 = ['-', '-'] then
    let l2 := (l1.drop 2).dropWhile isWs
    if l2.take 4 = ['n', 'a', 'm', 'e'] then
      let l3 := (l2.drop 4).dropWhile isWs
      if l3.take 1 = [':'] then some ((l3.drop 1).dropWhile isWs)
      else none
    else none
  else none

/-- `str::trim` on a line. -/
def trimLine (l : List Char) : List Char :=
  ((l.dropWhile isWs).reverse.dropWhile isWs).reverse

/-- Classification of the last consumed line (`LineType` in yesql.rs). -/
inductive LineType where
  | tag
  | query
  deriving DecidableEq, Repr

/-- Parser state: last line type, current tag, and the insertion-ordered
group map. -/
structure ParseSt where
  lastType : Option LineType
  lastTag : Option (List Char)
  queries : List (List Char × List Char)
  deriving DecidableEq, Repr

/-- Insert a query body under `name`: append a space-joined continuation to
an existing entry (keeping its position) or push a fresh entry at the end. -/
def insertQuery (qs : List (List Char × List Char)) (name value : List Char) :
    List (List Char × List Char) :=
  if qs.any (fun kv => kv.1 = name) then
    qs.map (fun kv => if kv.1 = name then (kv.1, kv.2 ++ ' ' :: value) else kv)
  else qs ++ [(name, value)]

/-- Consume one non-empty line. `none` models the two panics of `parse_sql`:
a tag directly after a tag, and a query body with no preceding tag. -/
def parseStep (st : ParseSt) (line : List Char) : Option ParseSt :=
  match tagOf line with
  | some name =>
    if st.lastType = some .tag then none
    else some { st with lastType := some .tag, lastTag := some name }
  | none =>
    match st.lastTag with
    | none => none
    | some tag =>
      some { lastType := some .query, lastTag := some tag,
             queries := insertQuery st.queries tag (trimLine line) }

/-- `parse_sql`: drop empty lines, fold the classifier, return the group. -/
def parse_sql (lines : List (List Char)) :
    Option (List (List Char × List Char)) :=
  ((lines.filter (fun l => l ≠ [])).foldlM parseStep ⟨none, none, []⟩).map
    ParseSt.queries

/-- `Queries::load` per group: rewrite every query body (the `SCHEMA`
placeholder substitution), keeping names and order. -/
def Queries.loadGroup (subst : List Char → List Char)
    (group : List (List Char × List Char)) : List (List Char × List Char) :=
  group.map (fun kv => (kv.1, subst kv.2))

/-- Names of the tag lines, in order of appearance in the source. -/
def tagsOf (lines : List (List Char)) : List (List Char) :=
  lines.filterMap tagOf

/-- The tag waiting for its first body line: `lastTag` right after a tag
line, nothing otherwise. -/
def stPending (st : ParseSt) : Option (List Char) :=
  match st.lastType with
  | some .tag => st.lastTag
  | _ => none

/-- Names that processing `lines` from a state with pending tag `pending`
adds to the group map (assuming they are fresh), in insertion order. -/
def newNames : Option (List Char) → List (List Char) → List (List Char)
  | _, [] => []
  | pending, l :: rest =>
    match tagOf l with
    | some t => newNames (some t) rest
    | none =>
      match pending with
      | some t => t :: newNames none rest
      | none => newNames none rest

/-- A run shape that `parse_sql` accepts and that leaves no trailing bodyless
tag: a tag line requires no pending tag, and a pending tag must eventually
get a body. -/
def okRun : Option (List Char) → List (List Char) → Prop
  | none, [] => True
  | some _, [] => False
  | pending, l :: rest =>
    match tagOf l with
    | some t => pending = none ∧ okRun (some t) rest
    | none => okRun none rest

/-- First components of an association list. -/
def keysOf (qs : List (List Char × List Char)) : List (List Char) :=
  qs.map Prod.fst

/-! ## Theorems -/

/-- C2. `push_block` persists the block and its transactions atomically
(after a successful call they are present in the database), idempotent by
`(height, hash)`. The code violates the persistence half: the body of
`IndexerDataBase::push_block` is literally `Ok(())` — it issues no query, so
the database state after a successful call is exactly the state before it,
and a block not already present is still absent. -/
theorem C2_push_block_is_noop (db : DbState) (b : Block) :
    IndexerDataBase.push_block db b = (.ok (), db) := rfl

/-- C9. `IndexerStatus::merge` modifies only `node_syncing_height` and
`node_syncing_hash`; `service_sync_from` is left exactly as it was (its
`update_field!` line is commented out in the source). -/
theorem C9_merge_frame (s o : IndexerStatus) :
    (s.merge o).service_sync_from = s.service_sync_from ∧
    (s.merge o).node_syncing_height = o.node_syncing_height ∧
    (s.merge o).node_syncing_hash = o.node_syncing_hash := by
  refine ⟨rfl, ?_, ?_⟩ <;>
    simp only [IndexerStatus.merge] <;> split <;> simp_all

/-- C10. `next` computes `end_height` as the `u32` subtraction
`node_height - 3`: whenever the status height is at least 3 the call is
defined, and with an empty skipped list (and the generator not yet finished)
a status height below 3 underflows the subtraction, so the operation is not
total. -/
theorem C10_end_height_subtraction :
    (∀ (g : StartSyncBlockHeightsGenerator) (nh : Nat), 3 ≤ nh →
      (g.next nh).isSome = true) ∧
    (∀ (g : StartSyncBlockHeightsGenerator) (nh : Nat),
      g.finished = false → g.skipped_heights = [] → nh < 3 →
      g.next nh = none) := by
  constructor
  · intro g nh h3
    simp only [StartSyncBlockHeightsGenerator.next]
    split
    · rfl
    · split
      · rfl
      · rw [if_neg (by omega)]
        split <;> rfl
  · intro g nh hfin hskip hlt
    simp [StartSyncBlockHeightsGenerator.next, hfin, hskip, hlt]

/-- Witness for C10 at concrete inputs. -/
theorem C10_witness :
    ((⟨false, [], 5⟩ : StartSyncBlockHeightsGenerator).next 7).isSome = true ∧
    (⟨false, [], 5⟩ : StartSyncBlockHeightsGenerator).next 2 = none :=
  ⟨C10_end_height_subtraction.1 ⟨false, [], 5⟩ 7 (by decide),
   C10_end_height_subtraction.2 ⟨false, [], 5⟩ 2 rfl rfl (by decide)⟩

/-- C3 counterexample. The claim says a replayed skipped height greater than
`node_height - 3` is never returned and produces a fatal error; the code pops
the skipped list without any comparison to the end height: with skipped
height 100 and node height 10 the call returns `Some 100`, although
`100 > 10 - 3`. -/
theorem C3_counterexample :
    (⟨false, [100], 0⟩ : StartSyncBlockHeightsGenerator).next 10 =
      some (some 100, ⟨false, [], 0⟩) ∧ ¬ (100 ≤ 10 - 3) :=
  ⟨rfl, by decide⟩

/-- C3 amended. Heights produced by the monotonic cursor (skipped list
empty) satisfy `h ≤ node_height - 3`; replayed skipped heights are returned
entirely unchecked. -/
theorem C3_amended (g g' : StartSyncBlockHeightsGenerator) (nh h : Nat)
    (hrun : g.next nh = some (some h, g'))
    (hskip : g.skipped_heights = []) : h ≤ nh - 3 := by
  simp only [StartSyncBlockHeightsGenerator.next, hskip] at hrun
  split at hrun
  · simp at hrun
  · simp only [List.getLast?_nil] at hrun
    split at hrun
    · exact absurd hrun (by simp)
    · split at hrun
      · simp only [Option.some.injEq, Prod.mk.injEq] at hrun
        omega
      · simp at hrun

/-- Witness for C3 amended at concrete inputs. -/
theorem C3_witness : (4 : Nat) ≤ 10 - 3 :=
  C3_amended ⟨false, [], 4⟩ ⟨false, [], 5⟩ 10 4 rfl rfl

/-- C4 counterexample. The claim says the generator is restartable after
returning absent; the code is not: from `next_height = 8` with node height 10
the call returns `None` and sets `finished`, and after the node advances to
100 (so that `8 ≤ 100 - 3`) the next call still returns `None`. -/
theorem C4_counterexample :
    (⟨false, [], 8⟩ : StartSyncBlockHeightsGenerator).next 10 =
      some (none, ⟨true, [], 8⟩) ∧
    (8 : Nat) ≤ 100 - 3 ∧
    (⟨true, [], 8⟩ : StartSyncBlockHeightsGenerator).next 100 =
      some (none, ⟨true, [], 8⟩) :=
  ⟨rfl, by decide, rfl⟩

/-- C4 amended. Returning `None` sets the `finished` flag, and once the flag
is set every later call returns `None` with the state unchanged, regardless
of how far the shared status advances: the generator is permanently
exhausted, not restartable. -/
theorem C4_amended :
    (∀ (g : StartSyncBlockHeightsGenerator) (nh : Nat) g',
      g.next nh = some (none, g') → g'.finished = true) ∧
    (∀ (g : StartSyncBlockHeightsGenerator) (nh : Nat),
      g.finished = true → g.next nh = some (none, g)) := by
  constructor
  · intro g nh g' hrun
    simp only [StartSyncBlockHeightsGenerator.next] at hrun
    split at hrun
    · simp only [Option.some.injEq, Prod.mk.injEq] at hrun
      rw [← hrun.2]; assumption
    · split at hrun
      · simp at hrun
      · split at hrun
        · simp at hrun
        · split at hrun
          · simp at hrun
          · simp only [Option.some.injEq, Prod.mk.injEq] at hrun
            rw [← hrun.2]
  · intro g nh hfin
    simp [StartSyncBlockHeightsGenerator.next, hfin]

/-- Witness for C4 amended at concrete inputs. -/
theorem C4_witness :
    (⟨true, [], 8⟩ : StartSyncBlockHeightsGenerator).finished = true ∧
    (⟨true, [], 5⟩ : StartSyncBlockHeightsGenerator).next 50 =
      some (none, ⟨true, [], 5⟩) :=
  ⟨C4_amended.1 ⟨false, [], 8⟩ 10 ⟨true, [], 8⟩ rfl,
   C4_amended.2 ⟨true, [], 5⟩ 50 rfl⟩

/-- C6. `RPCClient::call` envelope handling: an id mismatch is
`NonceMismatch`; otherwise a present `error` field is `ResultRPC` with that
error; otherwise a missing `result` is `ResultNotFound`; otherwise the
result is returned. -/
theorem C6_call_envelope {T : Type} (req_id : Nat) (data : Response T) :
    (data.id ≠ req_id → RPCClient.call req_id data = .error .NonceMismatch) ∧
    (data.id = req_id → ∀ e, data.error = some e →
      RPCClient.call req_id data = .error (.ResultRPC e)) ∧
    (data.id = req_id → data.error = none → data.result = none →
      RPCClient.call req_id data = .error .ResultNotFound) ∧
    (data.id = req_id → data.error = none → ∀ r, data.result = some r →
      RPCClient.call req_id data = .ok r) := by
  refine ⟨?_, ?_, ?_, ?_⟩
  · intro hne
    simp [RPCClient.call, hne]
  · intro heq e herr
    simp [RPCClient.call, heq, herr]
  · intro heq herr hres
    simp [RPCClient.call, heq, herr, hres]
  · intro heq herr r hres
    simp [RPCClient.call, heq, herr, hres]

/-- Witness for C6 at concrete responses. -/
theorem C6_witness :
    RPCClient.call 5 (⟨4, none, some 7⟩ : Response Nat) =
      .error .NonceMismatch ∧
    RPCClient.call 5 (⟨5, some ⟨-28, "warming up"⟩, none⟩ : Response Nat) =
      .error (.ResultRPC ⟨-28, "warming up"⟩) ∧
    RPCClient.call 5 (⟨5, none, none⟩ : Response Nat) =
      .error .ResultNotFound ∧
    RPCClient.call 5 (⟨5, none, some 7⟩ : Response Nat) = .ok 7 :=
  ⟨(C6_call_envelope 5 ⟨4, none, some 7⟩).1 (by decide),
   (C6_call_envelope 5 ⟨5, some ⟨-28, "warming up"⟩, none⟩).2.1 rfl _ rfl,
   (C6_call_envelope 5 ⟨5, none, none⟩).2.2.1 rfl rfl rfl,
   (C6_call_envelope 5 ⟨5, none, some 7⟩).2.2.2 rfl rfl 7 rfl⟩

/-- C5. Fetching a block by hash: absent (`Ok(None)`) exactly on RPC error
code `-5` (resp. REST status 404); a returned block whose hash differs from
the requested one is the fatal `ResultMismatch`; a matching hash yields
`Some(block)`. -/
theorem C5_block_by_hash (hash : H256) :
    (∀ r, RPCClient.get_block_by_hash hash r = .ok none ↔
      ∃ e, r = .error (.ResultRPC e) ∧ e.code = -5) ∧
    (∀ b, b.hash = hash →
      RPCClient.get_block_by_hash hash (.ok b) = .ok (some b)) ∧
    (∀ b, b.hash ≠ hash →
      RPCClient.get_block_by_hash hash (.ok b) = .error .ResultMismatch) ∧
    (∀ status body parsed,
      RESTClient.get_block_by_hash hash status body parsed = .ok none ↔
      status = 404) ∧
    (∀ body b, b.hash = hash →
      RESTClient.get_block_by_hash hash 200 body (some b) = .ok (some b)) ∧
    (∀ body b, b.hash ≠ hash →
      RESTClient.get_block_by_hash hash 200 body (some b) =
        .error .ResultMismatch) := by
  refine ⟨?_, ?_, ?_, ?_, ?_, ?_⟩
  · intro r
    constructor
    · intro hok
      match r with
      | .ok b =>
        simp only [RPCClient.get_block_by_hash] at hok
        split at hok <;> simp_all
      | .error (.ResultRPC e) =>
        simp only [RPCClient.get_block_by_hash] at hok
        split at hok
        · exact ⟨e, rfl, by assumption⟩
        · simp_all
      | .error .NonceMismatch => simp [RPCClient.get_block_by_hash] at hok
      | .error .ResponseParse => simp [RPCClient.get_block_by_hash] at hok
      | .error .ResultNotFound => simp [RPCClient.get_block_by_hash] at hok
      | .error .ResultMismatch => simp [RPCClient.get_block_by_hash] at hok
      | .error (.ResultRest c m) => simp [RPCClient.get_block_by_hash] at hok
      | .error .Reqwest => simp [RPCClient.get_block_by_hash] at hok
    · rintro ⟨e, rfl, hcode⟩
      simp [RPCClient.get_block_by_hash, hcode]
  · intro b hb
    simp [RPCClient.get_block_by_hash, hb]
  · intro b hb
    simp [RPCClient.get_block_by_hash, hb]
  · intro status body parsed
    constructor
    · intro hok
      by_contra h404
      simp only [RESTClient.get_block_by_hash, if_neg h404] at hok
      split at hok
      · simp_all
      · split at hok <;> simp_all
        split at hok <;> simp_all
    · intro h404
      simp [RESTClient.get_block_by_hash, h404]
  · intro body b hb
    simp [RESTClient.get_block_by_hash, hb]
  · intro body b hb
    simp [RESTClient.get_block_by_hash, hb]

/-- Witness for C5 at concrete inputs. -/
theorem C5_witness :
    RPCClient.get_block_by_hash (List.replicate 32 0)
      (.error (.ResultRPC ⟨-5, "Block not found"⟩)) = .ok none ∧
    RPCClient.get_block_by_hash (List.replicate 32 0)
      (.ok ⟨0, List.replicate 32 0, none, none, [], 100, 0⟩) =
      .ok (some ⟨0, List.replicate 32 0, none, none, [], 100, 0⟩) ∧
    RESTClient.get_block_by_hash (List.replicate 32 0) 404 "" none =
      .ok none ∧
    RESTClient.get_block_by_hash (List.replicate 32 0) 200 ""
      (some ⟨1, List.replicate 32 7, none, none, [], 100, 0⟩) =
      .error .ResultMismatch :=
  ⟨((C5_block_by_hash (List.replicate 32 0)).1 _).mpr ⟨⟨-5, "Block not found"⟩, rfl, rfl⟩,
   (C5_block_by_hash (List.replicate 32 0)).2.1 _ rfl,
   ((C5_block_by_hash (List.replicate 32 0)).2.2.2.1 404 "" none).mpr rfl,
   (C5_block_by_hash (List.replicate 32 0)).2.2.2.2.2 "" _ (by decide)⟩

/-- Helper: rebuilding a character from its code point. -/
theorem char_ofNat_toNat (c : Char) : Char.ofNat c.toNat = c := by
  have h : c.toNat.isValidChar := c.valid
  apply Char.ext
  simp only [Char.ofNat, Char.toNat]
  split
  · simp only [Char.ofNatAux]
    apply UInt32.ext
    simp [UInt32.toNat, UInt32.ofNat']
  · exact absurd h (by assumption)

/-- Helper: a hex digit value is below 16. -/
theorem hexVal_lt16 {c : Char} {n : Nat} (h : hexVal c = some n) : n < 16 := by
  simp only [hexVal] at h
  split_ifs at h <;> simp only [Option.some.injEq] at h <;> omega

/-- Helper: on digits and lowercase letters, `hexChar` inverts `hexVal`. -/
theorem hexChar_hexVal {c : Char} {n : Nat} (h : hexVal c = some n)
    (hl : isLowerHex c = true) : hexChar n = c := by
  simp only [hexVal] at h
  simp only [isLowerHex, decide_eq_true_eq] at hl
  split_ifs at h with h1 h2 h3 <;> simp only [Option.some.injEq] at h
  · rw [hexChar, if_pos (by omega), show 48 + n = c.toNat by omega,
      char_ofNat_toNat]
  · rw [hexChar, if_neg (by omega), show 87 + n = c.toNat by omega,
      char_ofNat_toNat]
  · omega

/-- Helper: the failing arm of the `decodePairs` match. -/
theorem decodePairs_cons_none {c1 c2 : Char} {rest : List Char}
    (hfail : ∀ (hi lo : Nat) (bs : List Nat), hexVal c1 = some hi →
      hexVal c2 = some lo → decodePairs rest = some bs → False) :
    decodePairs (c1 :: c2 :: rest) = none := by
  simp only [decodePairs]

/-- Helper: a non-hex character anywhere makes `decodePairs` fail. -/
theorem decodePairs_none_of_bad {l : List Char} {c : Char}
    (hc : c ∈ l) (hbad : hexVal c = none) : decodePairs l = none := by
  induction l using decodePairs.induct with
  | case1 => simp at hc
  | case2 hd => rfl
  | case3 c1 c2 rest hi lo bs hrest hlo hhi ih =>
    rcases List.mem_cons.1 hc with rfl | hc2
    · rw [hbad] at hhi; cases hhi
    rcases List.mem_cons.1 hc2 with rfl | hc3
    · rw [hbad] at hlo; cases hlo
    · rw [ih hc3] at hrest; cases hrest
  | case4 c1 c2 rest hfail ih =>
    exact decodePairs_cons_none hfail

/-- Helper: every character of a decodable string is a hex digit. -/
theorem decodePairs_all_hex {l : List Char} {b : List Nat}
    (h : decodePairs l = some b) : ∀ c ∈ l, (hexVal c).isSome = true := by
  intro c hc
  rcases e : hexVal c with _ | n
  · rw [decodePairs_none_of_bad hc e] at h; cases h
  · rfl

/-- Helper: a decodable string has even length `2 * |bytes|`. -/
theorem decodePairs_length {l : List Char} {b : List Nat}
    (h : decodePairs l = some b) : l.length = 2 * b.length := by
  induction l using decodePairs.induct generalizing b with
  | case1 =>
    simp only [decodePairs, Option.some.injEq] at h
    simp [← h]
  | case2 hd => cases h
  | case3 c1 c2 rest hi lo bs hrest hlo hhi ih =>
    simp only [decodePairs, hrest, hlo, hhi, Option.some.injEq] at h
    subst h
    simp only [List.length_cons, ih hrest]
    ring
  | case4 c1 c2 rest hfail ih =>
    rw [decodePairs_cons_none hfail] at h
    cases h

/-- Helper: lowercase re-encoding of a successful decode. -/
theorem decodePairs_encode {l : List Char} {b : List Nat}
    (h : decodePairs l = some b) (hl : ∀ c ∈ l, isLowerHex c = true) :
    hexEncode b = l := by
  induction l using decodePairs.induct generalizing b with
  | case1 =>
    simp only [decodePairs, Option.some.injEq] at h
    simp [← h, hexEncode]
  | case2 hd => cases h
  | case3 c1 c2 rest hi lo bs hrest hlo hhi ih =>
    simp only [decodePairs, hrest, hlo, hhi, Option.some.injEq] at h
    subst h
    have hlo16 : lo < 16 := hexVal_lt16 hlo
    simp only [hexEncode]
    rw [show (16 * hi + lo) / 16 = hi by omega,
      show (16 * hi + lo) % 16 = lo by omega,
      hexChar_hexVal hhi (hl c1 (by simp)),
      hexChar_hexVal hlo (hl c2 (by simp)),
      ih hrest (fun c hc => hl c (by simp [hc]))]
  | case4 c1 c2 rest hfail ih =>
    rw [decodePairs_cons_none hfail] at h
    cases h

/-- C7 counterexample. The claim says encode ∘ decode is the identity on all
accepted inputs; the decoder (the `hex` crate) also accepts uppercase
digits, while the encoder emits lowercase: the all-uppercase string of 64
`A`s is accepted, decoded to bytes `0xAA`, and re-encoded as 64 `a`s, not
the original string. -/
theorem C7_counterexample :
    H256.deserialize_hex (List.replicate 64 'A') =
      some (List.replicate 32 170) ∧
    hexEncode (List.replicate 32 170) ≠ List.replicate 64 'A' := by
  constructor <;> decide

/-- C7 amended. Decoding accepts exactly the strings of 64 hex digits (any
string whose length is not 64 or that contains a non-hex character is
rejected), and re-encoding restores the original string whenever the
accepted input uses only digits and lowercase letters. -/
theorem C7_amended :
    (∀ s b, H256.deserialize_hex s = some b →
      s.length = 64 ∧ ∀ c ∈ s, (hexVal c).isSome = true) ∧
    (∀ s, s.length ≠ 64 → H256.deserialize_hex s = none) ∧
    (∀ s (c : Char), c ∈ s → hexVal c = none →
      H256.deserialize_hex s = none) ∧
    (∀ s b, H256.deserialize_hex s = some b →
      (∀ c ∈ s, isLowerHex c = true) → hexEncode b = s) := by
  refine ⟨?_, ?_, ?_, ?_⟩
  · intro s b h
    simp only [H256.deserialize_hex] at h
    split at h
    · exact ⟨by assumption, decodePairs_all_hex h⟩
    · cases h
  · intro s hlen
    simp [H256.deserialize_hex, hlen]
  · intro s c hc hbad
    simp only [H256.deserialize_hex]
    split
    · exact decodePairs_none_of_bad hc hbad
    · rfl
  · intro s b h hl
    simp only [H256.deserialize_hex] at h
    split at h
    · exact decodePairs_encode h hl
    · cases h

/-- Witness for C7 amended at concrete inputs. -/
theorem C7_witness :
    (List.replicate 64 'a').length = 64 ∧
    hexEncode (List.replicate 32 170) = List.replicate 64 'a' ∧
    H256.deserialize_hex (List.replicate 63 'a') = none :=
  ⟨((C7_amended.1 (List.replicate 64 'a') (List.replicate 32 170))
      (by decide)).1,
   C7_amended.2.2.2 (List.replicate 64 'a') (List.replicate 32 170)
     (by decide) (by decide),
   C7_amended.2.1 (List.replicate 63 'a') (by decide)⟩

/-- Helper: `minNat` of the empty list only. -/
theorem minNat_eq_none {l : List Nat} (h : minNat l = none) : l = [] := by
  cases l with
  | nil => rfl
  | cons a t =>
    simp only [minNat] at h
    cases e : minNat t <;> rw [e] at h <;> cases h

/-- Helper: `minNat` returns a member that is a lower bound. -/
theorem minNat_spec {l : List Nat} {m : Nat} (h : minNat l = some m) :
    m ∈ l ∧ ∀ x ∈ l, m ≤ x := by
  induction l generalizing m with
  | nil => cases h
  | cons a t ih =>
    simp only [minNat] at h
    cases e : minNat t with
    | none =>
      rw [e] at h
      simp only [Option.some.injEq] at h
      subst h
      have ht : t = [] := minNat_eq_none e
      subst ht
      simp
    | some mt =>
      rw [e] at h
      simp only [Option.some.injEq] at h
      subst h
      obtain ⟨hmem, hle⟩ := ih e
      constructor
      · rcases Nat.le_total a mt with ham | hma
        · simp [Nat.min_eq_left ham]
        · simp [Nat.min_eq_right hma, hmem]
      · intro x hx
        rcases List.mem_cons.1 hx with rfl | hx2
        · exact Nat.min_le_left _ mt
        · exact le_trans (Nat.min_le_right a mt) (hle x hx2)

/-- C1 counterexample. The claim says `next()` returns blocks in strictly
ascending height order for every fetch schedule. With heights 0 and 1 in
flight after construction (prefetch size 2, node height 10), the schedule in
which the fetch of height 1 completes before the fetch of height 0 makes the
two `next()` calls deliver block 1 and then block 0: the delivered height
sequence `[1, 0]` is not ascending. -/
theorem C1_counterexample :
    StartSyncBlocksGenerator.new 10 ⟨false, [], 0⟩ 2 =
      some ⟨⟨false, [], 2⟩, [(0, none), (1, none)]⟩ ∧
    runEvents 10 (⟨⟨false, [], 2⟩, [(0, none), (1, none)]⟩, [])
        [.taskDone 1 (some 1), .nextCall, .taskDone 0 (some 0), .nextCall] =
      some (⟨⟨false, [], 4⟩, [(2, none), (3, none)]⟩,
            [.ok (some 1), .ok (some 0)]) ∧
    emittedHeights [.ok (some 1), .ok (some 0)] = [1, 0] ∧
    ¬ List.Sorted (· < ·) [1, 0] := by
  refine ⟨rfl, rfl, rfl, ?_⟩
  decide

/-- C1 amended. Each `next()` call removes and returns the minimum height
among the slots whose fetch has already completed; a still-in-flight smaller
height is not considered, so ascending delivery holds only for schedules in
which the smallest pending height is always fetched first (for adversarial
completion orders the delivered sequence can decrease, as the counterexample
schedule shows). -/
theorem C1_amended (blocks : List (Nat × Option FRes)) (h : Nat)
    (hv : validHeight blocks = some h) :
    (∃ r, (h, some r) ∈ blocks) ∧
    (∀ kv ∈ blocks, kv.2.isSome = true → h ≤ kv.1) := by
  obtain ⟨hmem, hle⟩ := minNat_spec hv
  constructor
  · simp only [readyHeights, List.mem_map, List.mem_filter] at hmem
    obtain ⟨kv, ⟨hkv, hsome⟩, hfst⟩ := hmem
    rcases kv with ⟨k, v⟩
    cases v with
    | none => simp at hsome
    | some r =>
      refine ⟨r, ?_⟩
      simp only at hfst
      rwa [← hfst]
  · intro kv hkv hsome
    refine hle kv.1 ?_
    simp only [readyHeights, List.mem_map, List.mem_filter]
    exact ⟨kv, ⟨hkv, hsome⟩, rfl⟩

/-- Witness for C1 amended at a concrete pending map. -/
theorem C1_witness :
    (∃ r, ((5 : Nat), some r) ∈
      [((5 : Nat), some (FRes.ok 5)), (3, none), (7, some (.ok 7))]) ∧
    (∀ kv ∈ [((5 : Nat), some (FRes.ok 5)), (3, none), (7, some (.ok 7))],
      kv.2.isSome = true → 5 ≤ kv.1) :=
  C1_amended [(5, some (.ok 5)), (3, none), (7, some (.ok 7))] 5 rfl

/-- Helper: the `any` test of `insertQuery` decides key membership. -/
theorem any_eq_mem_keysOf {qs : List (List Char × List Char)}
    {name : List Char} :
    (qs.any (fun kv => kv.1 = name)) = true ↔ name ∈ keysOf qs := by
  simp only [List.any_eq_true, keysOf, List.mem_map, decide_eq_true_eq]

/-- Helper: appending to an existing entry keeps the key list. -/
theorem keysOf_insertQuery_mem {qs : List (List Char × List Char)}
    {name value : List Char} (h : name ∈ keysOf qs) :
    keysOf (insertQuery qs name value) = keysOf qs := by
  simp only [insertQuery, if_pos (any_eq_mem_keysOf.2 h), keysOf,
    List.map_map]
  refine List.map_congr_left ?_
  intro kv _
  simp only [Function.comp_apply]
  split <;> simp_all

/-- Helper: inserting a fresh entry appends its key. -/
theorem keysOf_insertQuery_notmem {qs : List (List Char × List Char)}
    {name value : List Char} (h : name ∉ keysOf qs) :
    keysOf (insertQuery qs name value) = keysOf qs ++ [name] := by
  have hno : ¬ (qs.any (fun kv => kv.1 = name)) = true := fun hc =>
    h (any_eq_mem_keysOf.1 hc)
  simp [insertQuery, if_neg hno, keysOf]

/-- Helper: the schema substitution keeps names and their order. -/
theorem keysOf_loadGroup (f : List Char → List Char)
    (g : List (List Char × List Char)) :
    keysOf (Queries.loadGroup f g) = keysOf g := by
  simp [Queries.loadGroup, keysOf, List.map_map]

/-- Helper: running the classifier appends exactly the `newNames` of the
consumed lines to the key list of the group map. -/
theorem parse_run_keys :
    ∀ (L : List (List Char)) (st st' : ParseSt),
      L.foldlM parseStep st = some st' →
      (tagsOf L).Nodup →
      (∀ t ∈ tagsOf L, t ∉ keysOf st.queries ∧ stPending st ≠ some t) →
      (∀ u, stPending st = some u → u ∉ keysOf st.queries) →
      (∀ u, st.lastType ≠ some .tag → st.lastTag = some u →
        u ∈ keysOf st.queries) →
      keysOf st'.queries = keysOf st.queries ++ newNames (stPending st) L := by
  intro L
  induction L with
  | nil =>
    intro st st' hrun _ _ _ _
    cases hrun
    simp [newNames]
  | cons l rest ih =>
    intro st st' hrun hnd hfresh hpend hcont
    rw [List.foldlM_cons] at hrun
    cases e : parseStep st l with
    | none => rw [e] at hrun; cases hrun
    | some st1 =>
      rw [e] at hrun
      have hrun2 : rest.foldlM parseStep st1 = some st' := hrun
      cases tg : tagOf l with
      | some t =>
        have hnotag : st.lastType ≠ some .tag := by
          intro hlt
          simp [parseStep, tg, hlt] at e
        have hst1 : st1 = { st with lastType := some .tag, lastTag := some t } := by
          simp only [parseStep, tg, if_neg hnotag, Option.some.injEq] at e
          exact e.symm
        have hpnone : stPending st = none := by
          simp only [stPending]
        have hkeys1 : keysOf st1.queries = keysOf st.queries := by rw [hst1]
        have hpend1 : stPending st1 = some t := by rw [hst1]; rfl
        have htags : tagsOf (l :: rest) = t :: tagsOf rest := by
          simp [tagsOf, List.filterMap_cons, tg]
        rw [htags] at hnd hfresh
        have hib := ih st1 st' hrun2 hnd.of_cons ?fresh1 ?pend1 ?cont1
        case fresh1 =>
          intro v hv
          constructor
          · rw [hkeys1]
            exact (hfresh v (by simp [hv])).1
          · rw [hpend1]
            intro hvt
            injection hvt with hvt
            rw [List.nodup_cons] at hnd
            exact hnd.1 (hvt ▸ hv)
        case pend1 =>
          intro u hu
          rw [hpend1] at hu
          injection hu with hu
          rw [hkeys1, ← hu]
          exact (hfresh t (by simp)).1
        case cont1 =>
          intro u habs
          rw [hst1] at habs
          simp at habs
        rw [hib, hkeys1, hpend1, hpnone]
        simp [newNames, tg]
      | none =>
        cases hlt : st.lastTag with
        | none => simp [parseStep, tg, hlt] at e
        | some u =>
          have hst1 : st1 =
              ⟨some .query, some u, insertQuery st.queries u (trimLine l)⟩ := by
            simp only [parseStep, tg, hlt, Option.some.injEq] at e
            exact e.symm
          have hpend1 : stPending st1 = none := by rw [hst1]; rfl
          have htags : tagsOf (l :: rest) = tagsOf rest := by
            simp [tagsOf, List.filterMap_cons, tg]
          rw [htags] at hnd hfresh
          cases hp : stPending st with
          | some w =>
            have hw : w = u := by
              simp only [stPending] at hp
              cases hlt2 : st.lastType with
              | none => rw [hlt2] at hp; cases hp
              | some ty =>
                cases ty with
                | tag =>
                  rw [hlt2, hlt] at hp
                  injection hp with hp
                  exact hp.symm
                | query => rw [hlt2] at hp; cases hp
            subst hw
            have hwkeys : w ∉ keysOf st.queries := hpend w hp
            have hkeys1 : keysOf st1.queries = keysOf st.queries ++ [w] := by
              rw [hst1]
              exact keysOf_insertQuery_notmem hwkeys
            have hib := ih st1 st' hrun2 hnd ?fresh2 ?pend2 ?cont2
            case fresh2 =>
              intro v hv
              rw [hkeys1, hpend1]
              constructor
              · intro hvmem
                rcases List.mem_append.1 hvmem with hv1 | hv2
                · exact (hfresh v hv).1 hv1
                · have hvw : v = w := by simpa using hv2
                  exact (hfresh v hv).2 (by rw [hp, hvw])
              · simp
            case pend2 =>
              intro v hv
              rw [hpend1] at hv
              cases hv
            case cont2 =>
              intro v _ hv
              rw [hst1] at hv
              injection hv with hv
              rw [hkeys1, ← hv]
              simp
            have hnn : newNames (some w) (l :: rest) = w :: newNames none rest := by
              simp [newNames, tg]
            rw [hib, hkeys1, hpend1, hnn]
            simp
          | none =>
            have hnotag2 : st.lastType ≠ some .tag := by
              intro hlt2
              simp only [stPending, hlt2, hlt] at hp
              cases hp
            have hu : u ∈ keysOf st.queries := hcont u hnotag2 hlt
            have hkeys1 : keysOf st1.queries = keysOf st.queries := by
              rw [hst1]
              exact keysOf_insertQuery_mem hu
            have hib := ih st1 st' hrun2 hnd ?fresh3 ?pend3 ?cont3
            case fresh3 =>
              intro v hv
              rw [hkeys1, hpend1]
              exact ⟨(hfresh v hv).1, by simp⟩
            case pend3 =>
              intro v hv
              rw [hpend1] at hv
              cases hv
            case cont3 =>
              intro v _ hv
              rw [hst1] at hv
              injection hv with hv
              rw [hkeys1, ← hv]
              exact hu
            rw [hib, hkeys1, hpend1]
            simp [newNames, tg]

/-- Helper: a successful parse whose last non-empty line is not a tag is an
`okRun`. -/
theorem okRun_of_run :
    ∀ (L : List (List Char)) (st st' : ParseSt),
      L.foldlM parseStep st = some st' →
      (match L.getLast? with
       | some l => tagOf l = none
       | none => stPending st = none) →
      okRun (stPending st) L := by
  intro L
  induction L with
  | nil =>
    intro st st' _ hlast
    simp only [List.getLast?_nil] at hlast
    simp [okRun, hlast]
  | cons l rest ih =>
    intro st st' hrun hlast
    rw [List.foldlM_cons] at hrun
    cases e : parseStep st l with
    | none => rw [e] at hrun; cases hrun
    | some st1 =>
      rw [e] at hrun
      have hrun2 : rest.foldlM parseStep st1 = some st' := hrun
      cases tg : tagOf l with
      | some t =>
        have hnotag : st.lastType ≠ some .tag := by
          intro hlt
          simp [parseStep, tg, hlt] at e
        have hst1 : st1 = { st with lastType := some .tag, lastTag := some t } := by
          simp only [parseStep, tg, if_neg hnotag, Option.some.injEq] at e
          exact e.symm
        have hpnone : stPending st = none := by
          simp only [stPending]
        have hpend1 : stPending st1 = some t := by rw [hst1]; rfl
        simp only [okRun, tg]
        refine ⟨hpnone, ?_⟩
        cases rest with
        | nil =>
          simp only [List.getLast?_singleton] at hlast
          rw [hlast] at tg
          cases tg
        | cons r rs =>
          have hlast2 : (match (r :: rs).getLast? with
              | some l2 => tagOf l2 = none
              | none => stPending st1 = none) := by
            rw [List.getLast?_cons_cons] at hlast
            cases hg : (r :: rs).getLast? with
            | none => simp at hg
            | some l2 => rw [hg] at hlast; exact hlast
          have := ih st1 st' hrun2 hlast2
          rwa [hpend1] at this
      | none =>
        cases hlt : st.lastTag with
        | none => simp [parseStep, tg, hlt] at e
        | some u =>
          have hst1 : st1 =
              ⟨some .query, some u, insertQuery st.queries u (trimLine l)⟩ := by
            simp only [parseStep, tg, hlt, Option.some.injEq] at e
            exact e.symm
          have hpend1 : stPending st1 = none := by rw [hst1]; rfl
          simp only [okRun, tg]
          have hlast2 : (match rest.getLast? with
              | some l2 => tagOf l2 = none
              | none => stPending st1 = none) := by
            cases rest with
            | nil => simp [hpend1]
            | cons r rs =>
              rw [List.getLast?_cons_cons] at hlast
              cases hg : (r :: rs).getLast? with
              | none => simp at hg
              | some l2 => rw [hg] at hlast; exact hlast
          have := ih st1 st' hrun2 hlast2
          rwa [hpend1] at this

/-- Helper: over an `okRun`, the inserted names are exactly the pending tag
followed by the tag lines in source order. -/
theorem newNames_eq_tags :
    ∀ (L : List (List Char)) (pending : Option (List Char)),
      okRun pending L →
      newNames pending L = pending.toList ++ tagsOf L := by
  intro L
  induction L with
  | nil =>
    intro pending hok
    cases pending with
    | none => simp [newNames, tagsOf]
    | some t => simp [okRun] at hok
  | cons l rest ih =>
    intro pending hok
    cases tg : tagOf l with
    | some t =>
      simp only [okRun, tg] at hok
      obtain ⟨hpn, hok2⟩ := hok
      subst hpn
      have h2 := ih (some t) hok2
      simp [newNames, tg, tagsOf, List.filterMap_cons, h2]
    | none =>
      simp only [okRun, tg] at hok
      have h2 := ih none hok
      cases pending with
      | none => simp [newNames, tg, tagsOf, List.filterMap_cons, h2]
      | some t => simp [newNames, tg, tagsOf, List.filterMap_cons, h2]

/-- C8. The named-query loader preserves per-group insertion order: when the
SQL source parses successfully, its tag names are pairwise distinct and its
last non-empty line is a query body, iterating over the loaded group (before
or after the `SCHEMA` substitution of `Queries::load`) yields the named
queries exactly in the order their name tags appear in the source text — in
particular the `create` group runs in declaration order. -/
theorem C8_loader_order (lines : List (List Char))
    (qs : List (List Char × List Char)) (schemaSubst : List Char → List Char)
    (hp : parse_sql lines = some qs)
    (hnd : (tagsOf (lines.filter (fun l => l ≠ []))).Nodup)
    (hlast : ∀ l, (lines.filter (fun l => l ≠ [])).getLast? = some l →
      tagOf l = none) :
    keysOf (Queries.loadGroup schemaSubst qs) =
      tagsOf (lines.filter (fun l => l ≠ [])) ∧
    keysOf qs = tagsOf (lines.filter (fun l => l ≠ [])) := by
  simp only [parse_sql, Option.map_eq_some'] at hp
  obtain ⟨st', hrun, hqs⟩ := hp
  have hkeys := parse_run_keys (lines.filter (fun l => l ≠ []))
    ⟨none, none, []⟩ st' hrun hnd ?fresh ?pend ?cont
  case fresh => intro t _; exact ⟨by simp [keysOf], by simp [stPending]⟩
  case pend => intro u hu; simp [stPending] at hu
  case cont => intro u _ hu; cases hu
  have hok := okRun_of_run (lines.filter (fun l => l ≠ []))
    ⟨none, none, []⟩ st' hrun ?last
  case last =>
    cases hg : (lines.filter (fun l => l ≠ [])).getLast? with
    | none => simp [stPending]
    | some l2 => exact hlast l2 hg
  have hnn := newNames_eq_tags (lines.filter (fun l => l ≠ []))
    (stPending ⟨none, none, []⟩) hok
  have hmain : keysOf qs = tagsOf (lines.filter (fun l => l ≠ [])) := by
    rw [← hqs, hkeys, hnn]
    simp [keysOf, stPending]
  exact ⟨by rw [keysOf_loadGroup, hmain], hmain⟩

/-- Witness for C8 on a concrete two-query SQL group. -/
theorem C8_witness :
    keysOf (Queries.loadGroup id
      [("one".data, "SELECT 1;".data), ("two".data, "SELECT 2;".data)]) =
      tagsOf ([ "-- name: one".data, "SELECT 1;".data, [],
                "-- name: two".data, "SELECT 2;".data
              ].filter (fun l => l ≠ [])) ∧
    keysOf [("one".data, "SELECT 1;".data), ("two".data, "SELECT 2;".data)] =
      tagsOf ([ "-- name: one".data, "SELECT 1;".data, [],
                "-- name: two".data, "SELECT 2;".data
              ].filter (fun l => l ≠ [])) :=
  C8_loader_order
    [ "-- name: one".data, "SELECT 1;".data, [],
      "-- name: two".data, "SELECT 2;".data ]
    [("one".data, "SELECT 1;".data), ("two".data, "SELECT 2;".data)]
    id (by decide) (by decide)
    (by
      intro l hl
      injection hl with hl
      rw [← hl]
      decide)

end Telescope
